import Mathlib

/-!
# Verification of the SWE prototype (signature-based witness encryption)

Shallow embedding of the repository's Python sources (`ecutils.py`,
`hashtofr.py`, `modbls.py`, `swe.py`) over the pairing backend `pymcl`.

## Representation of the algebraic backend

All group values manipulated by the program lie in the cyclic subgroups of
prime order `r` generated by `pymcl.g1`, `pymcl.g2` and
`gt = pairing(g1, g2)`.  We therefore represent every group element by its
discrete logarithm with respect to the corresponding generator, an element
of `ZMod r`:

* `Fr r = ZMod r` — the scalar field, with `pymcl`'s `+ - * /` being the
  field operations (division by zero yields the junk value `0`, matching
  the total-function convention of the algebraic model);
* `G1 r = ZMod r` — `x·g1 ↦ x`; point addition `P + Q ↦ p + q`, scalar
  multiplication `P * a ↦ p * a`, `pymcl.g1 ↦ 1`;
* `G2 r = ZMod r` — same, with `pymcl.g2 ↦ 1`;
* `GTe r = ZMod r` — `gt^x ↦ x`; the *multiplicative* `GT` operations map
  to exponent arithmetic: `X * Y ↦ x + y`, `X / Y ↦ x - y`,
  `X ** (a : Fr) ↦ x * a`;
* `pairing (x·g1) (y·g2) = gt^(x·y) ↦ x * y` (bilinearity).

External ingredients are abstract parameters: `sha256num s` stands for
`int.from_bytes(hashlib.sha256(s.encode()).digest(), 'big')`, `reprG2`
for Python's `repr` on `G2`, and `hashG1 msg` for the discrete log of
`pymcl.G1.hash(msg.encode())`.

Python `raise` is modelled by `Except String`; a Python `dict` by an
insertion-ordered association list whose lookup prefers the most recent
insertion (Python's overwrite semantics).  List indexing `l[i]` is
totalised as `l.getD i 0`; every theorem that relies on an index supplies
the in-range hypotheses under which `getD` agrees with Python indexing.
Calls to `pymcl.Fr.random()` are modelled by explicit arguments (the
sampled values), one per sampling site.
-/

/-- Decidable equality for `Except`, needed to evaluate modelled code on
concrete inputs. -/
instance {ε α : Type} [DecidableEq ε] [DecidableEq α] :
    DecidableEq (Except ε α) := fun a b =>
  match a, b with
  | .error e, .error e' =>
      if h : e = e' then .isTrue (by rw [h]) else
        .isFalse (by intro hc; cases hc; exact h rfl)
  | .ok v, .ok v' =>
      if h : v = v' then .isTrue (by rw [h]) else
        .isFalse (by intro hc; cases hc; exact h rfl)
  | .error _, .ok _ => .isFalse (by intro hc; cases hc)
  | .ok _, .error _ => .isFalse (by intro hc; cases hc)

/-- The scalar field `pymcl.Fr` (prime modulus `pymcl.r`). -/
abbrev Fr (r : ℕ) : Type := ZMod r

/-- The group `pymcl.G1`, represented by discrete logs base `pymcl.g1`. -/
abbrev G1 (r : ℕ) : Type := ZMod r

/-- The group `pymcl.G2`, represented by discrete logs base `pymcl.g2`. -/
abbrev G2 (r : ℕ) : Type := ZMod r

/-- The group `pymcl.GT`, represented by discrete logs base
`gt = pairing(g1, g2)`; `GT` multiplication is exponent addition. -/
abbrev GTe (r : ℕ) : Type := ZMod r

section Embedding

variable (r : ℕ) [Fact (Nat.Prime r)]

/-- `pymcl.g1 ↦ 1`. -/
def g1gen : G1 r := 1

/-- `pymcl.g2 ↦ 1`. -/
def g2gen : G2 r := 1

/-- `pymcl.pairing`: `e(x·g1, y·g2) = gt^(x*y)`. -/
def pairing (p : G1 r) (q : G2 r) : GTe r := p * q

variable (sha256num : String → ℕ) (reprG2 : G2 r → String)
variable (hashG1 : String → G1 r)

namespace ecutils

/-- `ecutils.hash_g2_to_fr`: SHA-256 of `repr(value)`, as an integer,
reduced `% pymcl.r` and converted to `Fr`. -/
def hash_g2_to_fr (value : G2 r) : Fr r :=
  ((sha256num (reprG2 value) % r : ℕ) : ZMod r)

/-- `ecutils.pow_fr`: recursive square-and-multiply exponentiation. -/
def pow_fr (base : Fr r) (exponent : ℕ) : Fr r :=
  if exponent = 0 then 1
  else if exponent % 2 = 0 then
    let half := pow_fr base (exponent / 2)
    half * half
  else
    let half := pow_fr base ((exponent - 1) / 2)
    half * half * base
  decreasing_by
  · exact Nat.div_lt_self (Nat.pos_of_ne_zero (by assumption)) one_lt_two
  · exact Nat.lt_of_le_of_lt (Nat.div_le_self _ _)
      (Nat.sub_lt (Nat.pos_of_ne_zero (by assumption)) one_pos)

/-- `ecutils.eval_polynomial`: `result += coeff * pow_fr(value, i)` over
`enumerate(coefficients)`. -/
def eval_polynomial (value : Fr r) (coefficients : List (Fr r)) : Fr r :=
  coefficients.enum.foldl
    (fun result p => result + p.2 * pow_fr r value p.1) 0

/-- One step per loop iteration of `build_baby_step_table`:
`baby_steps[current] = j; current *= base` (in exponents: `current + base`),
for `fuel` remaining iterations starting at index `j`. -/
def buildAux (base : GTe r) : ℕ → ℕ → GTe r → List (GTe r × ℕ)
  | 0, _, _ => []
  | fuel + 1, j, current => (current, j) :: buildAux base fuel (j + 1) (current + base)

/-- `ecutils.build_baby_step_table`: `m = isqrt(max_value) + 1`; store
`base^j ↦ j` for `j ∈ [0, m)`, starting from `base / base` (the neutral
element, exponent `base - base`). -/
def build_baby_step_table (base : GTe r) (max_value : ℕ) : List (GTe r × ℕ) :=
  buildAux r base (Nat.sqrt max_value + 1) 0 (base - base)

/-- Lookup in the Python `dict` model: the most recently inserted binding
of the key wins. -/
def dictGet (d : List (GTe r × ℕ)) (k : GTe r) : Option ℕ :=
  (d.reverse.find? (fun p => decide (p.1 = k))).map (fun p => p.2)

/-- Error message of `ecutils.discrete_log`. -/
def dlogNotFoundMsg : String := "Discrete logarithm not found within the range."

/-- The giant-step loop of `discrete_log`: at step `i` (with `fuel`
iterations left out of `m`), if `current` is a key of `baby_steps` return
`Fr(i * m + baby_steps[current])`, else `current *= factor` (exponent
`current + factor`); after `m` steps, raise. -/
def dlogAux (baby_steps : List (GTe r × ℕ)) (m : ℕ) (factor : GTe r) :
    ℕ → ℕ → GTe r → Except String (Option (Fr r))
  | _, 0, _ => .error dlogNotFoundMsg
  | i, fuel + 1, current =>
    match dictGet r baby_steps current with
    | some j => .ok (some ((i * m + j : ℕ) : ZMod r))
    | none => dlogAux baby_steps m factor (i + 1) fuel (current + factor)

/-- `ecutils.discrete_log`: baby-step giant-step with
`m = isqrt(max_value) + 1` and `factor = base ** Fr(-m)` (exponent
`base * (-m)`).  The Python function returns an `Fr` (`some`) on every
`return` statement and otherwise raises; `ok none` is reserved for the
(nonexistent) fall-through `None` result. -/
def discrete_log (value base : GTe r) (baby_steps : List (GTe r × ℕ))
    (max_value : ℕ) : Except String (Option (Fr r)) :=
  let m := Nat.sqrt max_value + 1
  dlogAux r baby_steps m (base * (-(m : ZMod r))) 0 m value

end ecutils

namespace hashtofr

/-- `hashtofr.hash`: SHA-256 of `repr(value)`, as an integer, reduced
`% pymcl.r` and converted to `Fr` (same body as
`ecutils.hash_g2_to_fr`). -/
def hash (value : G2 r) : Fr r :=
  ((sha256num (reprG2 value) % r : ℕ) : ZMod r)

end hashtofr

namespace modbls

/-- `modbls.key_gen` with the sampled `sk` made explicit:
`pk = g2 * sk` (exponent `1 * sk`). -/
def key_gen (sk : Fr r) : Fr r × G2 r := (sk, g2gen r * sk)

/-- `modbls.sign`: `sig = G1.hash(message) * sk`. -/
def sign (sk : Fr r) (message : String) : G1 r := hashG1 message * sk

/-- `modbls.verify`: `pairing(sig, g2) == pairing(H(message), vk)`. -/
def verify (vk : G2 r) (message : String) (sig : G1 r) : Bool :=
  decide (pairing r sig (g2gen r) = pairing r (hashG1 message) vk)

/-- `modbls.compute_li`: `li = 1`, then for `j in range(len(xi))`, if
`i != j` then `li *= (-xi[j]) / (xi[i] - xi[j])`. -/
def compute_li (xi : List (Fr r)) (i : ℕ) : Fr r :=
  (List.range xi.length).foldl
    (fun li j =>
      if i ≠ j then li * ((-(xi.getD j 0)) / (xi.getD i 0 - xi.getD j 0))
      else li)
    1

/-- `modbls.agg_sigs`: `xi = [hash(vk) for vk in ver_keys]`;
`agg_sig = g1 - g1`; for `i in range(len(ver_keys))`,
`agg_sig += sigs[i] * compute_li(xi, i)`. -/
def agg_sigs (sigs : List (G1 r)) (ver_keys : List (G2 r)) : G1 r :=
  let xi := ver_keys.map (fun vk => hashtofr.hash r sha256num reprG2 vk)
  (List.range ver_keys.length).foldl
    (fun agg_sig i => agg_sig + sigs.getD i 0 * compute_li r xi i)
    (g1gen r - g1gen r)

/-- Error message of `modbls.agg_verify`. -/
def lenMismatchMsg : String :=
  "Number of messages must match number of verification keys."

/-- `modbls.agg_verify`: raises when `len(messages) != len(ver_keys)`;
otherwise compares `pairing(agg_sig, g2)` with
`Π_i pairing(H(messages[i]), ver_keys[i]) ** compute_li(xi, i)`, starting
from `pairing(g1 - g1, g2 - g2)` (the `GT` neutral element). -/
def agg_verify (agg_sig : G1 r) (messages : List String)
    (ver_keys : List (G2 r)) : Except String Bool :=
  if messages.length ≠ ver_keys.length then .error lenMismatchMsg
  else
    let xi := ver_keys.map (fun vk => hashtofr.hash r sha256num reprG2 vk)
    let lhs := pairing r agg_sig (g2gen r)
    let rhs := (List.range messages.length).foldl
      (fun rhs i =>
        rhs + pairing r (hashG1 (messages.getD i "")) (ver_keys.getD i 0) *
          compute_li r xi i)
      (pairing r (g1gen r - g1gen r) (g2gen r - g2gen r))
    .ok (decide (lhs = rhs))

end modbls

namespace swe

/-- `swe.Ciphertext`: the `NamedTuple` of `swe.py` — note it has the seven
fields `h, c, c0, c1, c2, a, t`. -/
structure Ciphertext where
  h : G2 r
  c : G2 r
  c0 : G2 r
  c1 : List (G2 r)
  c2 : List (GTe r)
  a : List (G2 r)
  t : List (G1 r)
  deriving DecidableEq

/-- `swe.encrypt` with every `pymcl.Fr.random()` site made explicit:
`coefficients` (the `dec_threshold` sampled polynomial coefficients),
`alpha` (one sampled scalar per message), `rr` (the scalar `r` of the
source), and `h_rand` (the scalar behind `h = g2 * Fr.random()`).

Line by line: `xi[i] = hash_g2_to_fr(ver_keys[i])`;
`s[i] = eval_polynomial(xi[i], coefficients)`; `c = g2 * r`;
`a[i] = c * alpha[i]`; `t[i] = G1.hash(target_message) * alpha[i]`;
`h = g2 * h_rand`; `c0 = (h * r) + (g2 * coefficients[0])`;
`c1[i] = (ver_keys[i] * r) + (g2 * s[i])`; `gt = pairing(g1, g2)`;
`c2[i] = pairing(t[i], g2 * coefficients[0]) * (gt ** messages[i])`
(in `GT` exponents: `+`). -/
def encrypt (dec_threshold : ℕ) (ver_keys : List (G2 r))
    (target_message : String) (messages : List (Fr r))
    (coefficients alpha : List (Fr r)) (rr h_rand : Fr r) : Ciphertext r :=
  let _ := dec_threshold
  let xi : List (Fr r) :=
    (List.range ver_keys.length).map
      (fun i => ecutils.hash_g2_to_fr r sha256num reprG2 (ver_keys.getD i 0))
  let s : List (Fr r) :=
    (List.range ver_keys.length).map
      (fun i => ecutils.eval_polynomial r (xi.getD i 0) coefficients)
  let c : G2 r := g2gen r * rr
  let a : List (G2 r) :=
    (List.range messages.length).map (fun i => c * alpha.getD i 0)
  let t : List (G1 r) :=
    (List.range messages.length).map
      (fun i => hashG1 target_message * alpha.getD i 0)
  let h : G2 r := g2gen r * h_rand
  let c0 : G2 r := h * rr + g2gen r * coefficients.getD 0 0
  let c1 : List (G2 r) :=
    (List.range ver_keys.length).map
      (fun i => ver_keys.getD i 0 * rr + g2gen r * s.getD i 0)
  let gt : GTe r := pairing r (g1gen r) (g2gen r)
  let c2 : List (GTe r) :=
    (List.range messages.length).map
      (fun i =>
        pairing r (t.getD i 0) (g2gen r * coefficients.getD 0 0) +
          gt * messages.getD i 0)
  Ciphertext.mk h c c0 c1 c2 a t

/-- Error message of the dead branch at the end of `swe.decrypt`. -/
def decFailedMsg : String := "Decryption failed."

/-- The list comprehension
`[discrete_log(z[i], gt, table, 2**msg_lengths) for i in range(len(z))]`:
sequential evaluation, propagating the first raise. -/
def mapDlog (f : GTe r → Except String (Option (Fr r))) :
    List (GTe r) → Except String (List (Option (Fr r)))
  | [] => .ok []
  | z :: zs =>
    match f z, mapDlog f zs with
    | .error e, _ => .error e
    | .ok _, .error e => .error e
    | .ok v, .ok vs => .ok (v :: vs)

/-- The final check of `swe.decrypt`: `if msg[i] is None: raise`,
otherwise return the list of (non-`None`) `Fr` values. -/
def allSome : List (Option (Fr r)) → Option (List (Fr r))
  | [] => some []
  | o :: os =>
    match o, allSome os with
    | some v, some vs => some (v :: vs)
    | _, _ => none

/-- The tail of `swe.decrypt` (lines 97–103): propagate a raise from the
discrete-log comprehension; otherwise raise `"Decryption failed."` when
some entry is `None`, else return the message list. -/
def decryptFinish (res : Except String (List (Option (Fr r)))) :
    Except String (List (Fr r)) :=
  match res with
  | .error e => .error e
  | .ok msg =>
    match allSome r msg with
    | some l => .ok l
    | none => .error (decFailedMsg)

/-- `swe.decrypt`.  Line by line:
`xi = [hash_g2_to_fr(ver_keys[i]) for i in used_vk_indices]`;
`lag_coeffs = [compute_li(xi, i) for i in range(len(used_vk_indices))]`;
`c = g2 - g2`, then `c += ctxt.c1[i] * lag_coeffs[idx]` over
`enumerate(used_vk_indices)`;
`z[i] = ctxt.c2[i] * pairing(aggr_signature, ctxt.a[i]) /
pairing(ctxt.t[i], c)` (exponents: `+ ... - ...`);
`msg[i] = discrete_log(z[i], pairing(g1, g2), table, 2**msg_lengths)`;
raise `"Decryption failed."` if some `msg[i]` is `None`, else return
`msg`. -/
def decrypt (ctxt : Ciphertext r) (aggr_signature : G1 r)
    (ver_keys : List (G2 r)) (used_vk_indices : List ℕ) (msg_lengths : ℕ)
    (baby_steps_table : List (GTe r × ℕ)) : Except String (List (Fr r)) :=
  let xi : List (Fr r) :=
    used_vk_indices.map
      (fun i => ecutils.hash_g2_to_fr r sha256num reprG2 (ver_keys.getD i 0))
  let lag_coeffs : List (Fr r) :=
    (List.range used_vk_indices.length).map (fun i => modbls.compute_li r xi i)
  let c : G2 r :=
    used_vk_indices.enum.foldl
      (fun c p => c + ctxt.c1.getD p.2 0 * lag_coeffs.getD p.1 0)
      (g2gen r - g2gen r)
  let z : List (GTe r) :=
    (List.range ctxt.c2.length).map
      (fun i =>
        ctxt.c2.getD i 0 + pairing r aggr_signature (ctxt.a.getD i 0) -
          pairing r (ctxt.t.getD i 0) c)
  let gt : GTe r := pairing r (g1gen r) (g2gen r)
  decryptFinish r
    (mapDlog r
      (fun zi => ecutils.discrete_log r zi gt baby_steps_table
        (2 ^ msg_lengths)) z)

end swe

end Embedding

section BasicLemmas

/-- Folding `acc + f x` over a list adds the mapped sum. -/
theorem foldl_add_sum {α M : Type} [AddCommMonoid M] (f : α → M) :
    ∀ (l : List α) (a : M),
      l.foldl (fun acc x => acc + f x) a = a + (l.map f).sum
  | [], a => by simp
  | x :: l, a => by
    simp only [List.foldl_cons, List.map_cons, List.sum_cons]
    rw [foldl_add_sum f l (a + f x), add_assoc]

/-- The mapped sum over `enumFrom` as a `Finset.range` sum over totalised
indexing. -/
theorem enumFrom_map_sum {α M : Type} [AddCommMonoid M] (d : α)
    (f : ℕ × α → M) :
    ∀ (l : List α) (n : ℕ),
      ((l.enumFrom n).map f).sum
        = ∑ i ∈ Finset.range l.length, f (n + i, l.getD i d)
  | [], n => by simp
  | x :: l, n => by
    rw [List.enumFrom_cons, List.map_cons, List.sum_cons,
      enumFrom_map_sum d f l (n + 1), List.length_cons,
      Finset.sum_range_succ']
    simp only [List.getD_cons_succ, List.getD_cons_zero, Nat.add_zero]
    rw [add_comm]
    congr 1
    apply Finset.sum_congr rfl
    intro i _
    congr 2
    omega

/-- The mapped sum over `List.range` as a `Finset.range` sum. -/
theorem range_map_sum {M : Type} [AddCommMonoid M] (f : ℕ → M) :
    ∀ n : ℕ, ((List.range n).map f).sum = ∑ j ∈ Finset.range n, f j := by
  intro n
  induction n with
  | zero => simp
  | succ n ih =>
    rw [List.range_succ, List.map_append, List.sum_append,
      Finset.sum_range_succ, ih]
    simp

/-- A guarded multiplicative fold over `List.range` is the product over
`(Finset.range n).erase i`. -/
theorem foldl_if_mul {M : Type} [CommMonoid M] (g : ℕ → M) (i : ℕ) :
    ∀ (n : ℕ) (a : M),
      (List.range n).foldl (fun li j => if i ≠ j then li * g j else li) a
        = a * ∏ j ∈ (Finset.range n).erase i, g j := by
  intro n
  induction n with
  | zero => intro a; simp
  | succ n ih =>
    intro a
    rw [List.range_succ, List.foldl_append, ih, Finset.range_succ]
    by_cases hin : i = n
    · subst hin
      rw [Finset.erase_insert (Finset.not_mem_range_self),
        Finset.erase_eq_of_not_mem (Finset.not_mem_range_self)]
      simp
    · rw [Finset.erase_insert_of_ne (Ne.symm hin),
        Finset.prod_insert (fun hc => Finset.not_mem_range_self
          (Finset.mem_of_mem_erase hc))]
      simp only [List.foldl_cons, List.foldl_nil, if_neg (not_not.mpr rfl)]
      rw [if_pos hin, mul_comm (g n), mul_assoc]

variable (r : ℕ) [Fact (Nat.Prime r)]

/-- `ecutils.pow_fr` computes the monoid power. -/
theorem pow_fr_eq (base : Fr r) (e : ℕ) :
    ecutils.pow_fr r base e = base ^ e := by
  induction e using Nat.strong_induction_on with
  | _ e ih =>
    rw [ecutils.pow_fr]
    by_cases h0 : e = 0
    · simp [h0]
    · rw [if_neg h0]
      by_cases h2 : e % 2 = 0
      · rw [if_pos h2]
        show ecutils.pow_fr r base (e / 2) * ecutils.pow_fr r base (e / 2)
          = base ^ e
        rw [ih (e / 2) (Nat.div_lt_self (Nat.pos_of_ne_zero h0) one_lt_two),
          ← pow_add]
        congr 1
        omega
      · rw [if_neg h2]
        show ecutils.pow_fr r base ((e - 1) / 2) *
          ecutils.pow_fr r base ((e - 1) / 2) * base = base ^ e
        rw [ih ((e - 1) / 2) (Nat.lt_of_le_of_lt
          (Nat.div_le_self _ _) (Nat.sub_lt (Nat.pos_of_ne_zero h0) one_pos)),
          ← pow_add, ← pow_succ]
        congr 1
        omega

/-- `ecutils.eval_polynomial` computes `Σ coefficients[i] * value^i`. -/
theorem eval_polynomial_eq (value : Fr r) (coefficients : List (Fr r)) :
    ecutils.eval_polynomial r value coefficients
      = ∑ i ∈ Finset.range coefficients.length,
          coefficients.getD i 0 * value ^ i := by
  rw [ecutils.eval_polynomial,
    show coefficients.enum = coefficients.enumFrom 0 from rfl,
    foldl_add_sum (fun (p : ℕ × Fr r) => p.2 * ecutils.pow_fr r value p.1),
    enumFrom_map_sum (0 : Fr r)
      (fun (p : ℕ × Fr r) => p.2 * ecutils.pow_fr r value p.1),
    zero_add]
  apply Finset.sum_congr rfl
  intro i _
  simp only [Nat.zero_add]
  rw [pow_fr_eq]

/-- `modbls.compute_li` as a product over the index set minus `i`. -/
theorem compute_li_eq_prod (xi : List (Fr r)) (i : ℕ) :
    modbls.compute_li r xi i
      = ∏ j ∈ (Finset.range xi.length).erase i,
          (-(xi.getD j 0)) / (xi.getD i 0 - xi.getD j 0) := by
  rw [modbls.compute_li, foldl_if_mul
    (fun j => (-(xi.getD j 0)) / (xi.getD i 0 - xi.getD j 0)) i, one_mul]

/-- Lagrange reconstruction at `0`: weighting the evaluations of a
polynomial (given by its coefficient list) at pairwise-distinct points by
`modbls.compute_li` recovers the constant term.  Core of claims C1/C3. -/
theorem lagrange_core (coeffs xs : List (Fr r))
    (hlen : xs.length = coeffs.length) (hnd : xs.Nodup) :
    ∑ i ∈ Finset.range xs.length,
        modbls.compute_li r xs i *
          ecutils.eval_polynomial r (xs.getD i 0) coeffs
      = coeffs.getD 0 0 := by
  rcases Nat.eq_zero_or_pos coeffs.length with h0 | hpos
  · have hx : xs.length = 0 := by omega
    have hc : coeffs = [] := List.length_eq_zero.mp h0
    simp [hx, hc]
  · have hinj : Set.InjOn (fun j => xs.getD j 0)
        ↑(Finset.range xs.length) := by
      intro a ha b hb hab
      simp only [Finset.coe_range, Set.mem_Iio] at ha hb
      simp only at hab
      rw [List.getD_eq_getElem xs 0 ha, List.getD_eq_getElem xs 0 hb] at hab
      exact (List.Nodup.getElem_inj_iff hnd).mp hab
    set f : Polynomial (Fr r) :=
      ∑ k ∈ Finset.range coeffs.length,
        Polynomial.C (coeffs.getD k 0) * Polynomial.X ^ k with hf
    have hdeg : f.degree < (Finset.range xs.length).card := by
      rw [Finset.card_range, hlen]
      refine lt_of_le_of_lt (Polynomial.degree_sum_le _ _) ?_
      rw [Finset.sup_lt_iff (WithBot.bot_lt_coe _)]
      intro k hk
      refine lt_of_le_of_lt (Polynomial.degree_C_mul_X_pow_le _ _) ?_
      exact_mod_cast Finset.mem_range.mp hk
    have hbasis : ∀ i ∈ Finset.range xs.length,
        Polynomial.eval 0
            (Lagrange.basis (Finset.range xs.length)
              (fun j => xs.getD j 0) i)
          = modbls.compute_li r xs i := by
      intro i _
      rw [compute_li_eq_prod, Lagrange.basis, Polynomial.eval_prod]
      apply Finset.prod_congr rfl
      intro j _
      rw [Lagrange.basisDivisor, Polynomial.eval_mul, Polynomial.eval_C,
        Polynomial.eval_sub, Polynomial.eval_X, Polynomial.eval_C,
        div_eq_mul_inv, zero_sub, mul_comm]
    have hfeval : ∀ i : ℕ,
        Polynomial.eval (xs.getD i 0) f
          = ecutils.eval_polynomial r (xs.getD i 0) coeffs := by
      intro i
      rw [eval_polynomial_eq, hf, Polynomial.eval_finset_sum]
      apply Finset.sum_congr rfl
      intro k _
      rw [Polynomial.eval_mul, Polynomial.eval_C, Polynomial.eval_pow,
        Polynomial.eval_X]
    have hc0 : Polynomial.eval 0 f = coeffs.getD 0 0 := by
      rw [hf, Polynomial.eval_finset_sum]
      rw [Finset.sum_eq_single 0]
      · simp
      · intro k _ hk0
        simp [zero_pow hk0]
      · intro habs
        exact absurd (Finset.mem_range.mpr hpos) habs
    have hkey := Lagrange.eq_interpolate hinj hdeg
    have h0e := congrArg (Polynomial.eval 0) hkey
    rw [Lagrange.interpolate_apply, hc0, Polynomial.eval_finset_sum] at h0e
    simp only [Polynomial.eval_mul, Polynomial.eval_C] at h0e
    rw [h0e]
    apply Finset.sum_congr rfl
    intro i hi
    rw [← hbasis i hi, ← hfeval i, mul_comm]

end BasicLemmas

section BSGS

/-- `find?` on an association list with duplicate-free keys locates the
unique binding of a present key. -/
theorem find?_of_keys_nodup {A : Type} [DecidableEq A] :
    ∀ (d : List (A × ℕ)), (d.map Prod.fst).Nodup →
      ∀ (k : A) (j : ℕ), (k, j) ∈ d →
        d.find? (fun p => decide (p.1 = k)) = some (k, j)
  | [], _, k, j, h => absurd h (List.not_mem_nil _)
  | (a, b) :: d, hnd, k, j, h => by
    rw [List.map_cons, List.nodup_cons] at hnd
    by_cases hak : a = k
    · subst hak
      have hkj : (a, j) = (a, b) := by
        rcases List.mem_cons.mp h with h1 | h1
        · exact h1
        · exact absurd (List.mem_map.mpr ⟨(a, j), h1, rfl⟩) hnd.1
      rw [List.find?_cons_of_pos _ (by simp)]
      rw [Prod.mk.injEq] at hkj
      rw [hkj.2]
    · have hmem : (k, j) ∈ d := by
        rcases List.mem_cons.mp h with h1 | h1
        · rw [Prod.mk.injEq] at h1
          exact absurd h1.1.symm hak
        · exact h1
      rw [List.find?_cons_of_neg _ (by simp [hak])]
      exact find?_of_keys_nodup d hnd.2 k j hmem

variable (r : ℕ) [Fact (Nat.Prime r)]

/-- Closed form of the table-building loop. -/
theorem buildAux_eq (base : GTe r) :
    ∀ (fuel j : ℕ) (current : GTe r),
      ecutils.buildAux r base fuel j current
        = (List.range fuel).map
            (fun (k : ℕ) => (current + (k : ZMod r) * base, j + k))
  | 0, _, _ => by simp [ecutils.buildAux]
  | fuel + 1, j, current => by
    rw [show ecutils.buildAux r base (fuel + 1) j current
        = (current, j) :: ecutils.buildAux r base fuel (j + 1) (current + base)
      from rfl,
      buildAux_eq base fuel (j + 1) (current + base),
      List.range_succ_eq_map, List.map_cons, List.map_map]
    simp only [Nat.cast_zero, zero_mul, add_zero, Nat.add_zero]
    congr 1
    apply List.map_congr_left
    intro k _
    simp only [Function.comp_apply, Prod.mk.injEq]
    constructor
    · push_cast
      ring
    · omega

/-- The baby-step table is `base^k ↦ k` for `k < isqrt(max_value) + 1`,
entries in insertion order. -/
theorem table_eq (base : GTe r) (mv : ℕ) :
    ecutils.build_baby_step_table r base mv
      = (List.range (Nat.sqrt mv + 1)).map
          (fun (k : ℕ) => ((k : ZMod r) * base, k)) := by
  rw [ecutils.build_baby_step_table, buildAux_eq]
  simp [sub_self]

/-- Looking up `base^j` in the table returns `j`, provided the baby-step
keys are pairwise distinct (`base ≠ 1` in `GT`, i.e. exponent `≠ 0`, and
`m ≤ r`). -/
theorem dictGet_table_some (β : GTe r) (mv j : ℕ) (hβ : β ≠ 0)
    (hm : Nat.sqrt mv + 1 ≤ r) (hj : j < Nat.sqrt mv + 1) :
    ecutils.dictGet r (ecutils.build_baby_step_table r β mv)
        ((j : ZMod r) * β) = some j := by
  rw [ecutils.dictGet, table_eq]
  have hkeysnd :
      ((((List.range (Nat.sqrt mv + 1)).map
          (fun (k : ℕ) => ((k : ZMod r) * β, k))).reverse.map Prod.fst)).Nodup := by
    rw [List.map_reverse, List.nodup_reverse, List.map_map]
    refine List.Nodup.map_on ?_ (List.nodup_range _)
    intro a ha b hb hab
    simp only [Function.comp_apply] at hab
    have hab' : (a : ZMod r) = (b : ZMod r) := mul_right_cancel₀ hβ hab
    have ha' : a < r := lt_of_lt_of_le (List.mem_range.mp ha) hm
    have hb' : b < r := lt_of_lt_of_le (List.mem_range.mp hb) hm
    calc a = ((a : ZMod r)).val := (ZMod.val_cast_of_lt ha').symm
    _ = ((b : ZMod r)).val := by rw [hab']
    _ = b := ZMod.val_cast_of_lt hb'
  have hmem : (((j : ZMod r) * β), j) ∈
      ((List.range (Nat.sqrt mv + 1)).map
        (fun (k : ℕ) => ((k : ZMod r) * β, k))).reverse :=
    List.mem_reverse.mpr (List.mem_map.mpr ⟨j, List.mem_range.mpr hj, rfl⟩)
  rw [find?_of_keys_nodup _ hkeysnd _ _ hmem]
  rfl

/-- Looking up a value that is none of `base^j`, `j < m`, misses. -/
theorem dictGet_table_none (β : GTe r) (mv : ℕ) (κ : GTe r)
    (hnot : ∀ j < Nat.sqrt mv + 1, κ ≠ (j : ZMod r) * β) :
    ecutils.dictGet r (ecutils.build_baby_step_table r β mv) κ = none := by
  rw [ecutils.dictGet, table_eq]
  have hfind :
      (((List.range (Nat.sqrt mv + 1)).map
        (fun (k : ℕ) => ((k : ZMod r) * β, k))).reverse.find?
          (fun p => decide (p.1 = κ))) = none := by
    rw [List.find?_eq_none]
    intro x hx
    rw [List.mem_reverse] at hx
    rcases List.mem_map.mp hx with ⟨k, hk, rfl⟩
    simp only [decide_eq_true_eq]
    intro he
    exact hnot k (List.mem_range.mp hk) he.symm
  rw [hfind]
  rfl

/-- The giant-step loop: started at step `i ≤ x / m` with the invariant
value `base^(x - i*m)` and enough fuel to reach step `x / m`, it returns
`x`.  Needs the baby-step keys pairwise distinct and `x < m * m ≤ r`. -/
theorem dlogAux_run (β : GTe r) (mv : ℕ) (hβ : β ≠ 0)
    (hr : (Nat.sqrt mv + 1) * (Nat.sqrt mv + 1) ≤ r) (x : ℕ)
    (hx : x < (Nat.sqrt mv + 1) * (Nat.sqrt mv + 1)) :
    ∀ (fuel i : ℕ), i ≤ x / (Nat.sqrt mv + 1) →
      x / (Nat.sqrt mv + 1) < i + fuel →
      ecutils.dlogAux r (ecutils.build_baby_step_table r β mv)
          (Nat.sqrt mv + 1) (β * (-((Nat.sqrt mv + 1 : ℕ) : ZMod r))) i fuel
          (((x - i * (Nat.sqrt mv + 1) : ℕ) : ZMod r) * β)
        = .ok (some ((x : ℕ) : ZMod r)) := by
  set m := Nat.sqrt mv + 1 with hmdef
  have hm0 : 0 < m := Nat.succ_pos _
  have hmr : m ≤ r := le_trans (Nat.le_mul_of_pos_left m hm0) hr
  have hqm : m * (x / m) + x % m = x := Nat.div_add_mod x m
  have hrem : x % m < m := Nat.mod_lt x hm0
  intro fuel
  induction fuel with
  | zero => intro i h1 h2; omega
  | succ fuel ih =>
    intro i h1 h2
    rcases Nat.lt_or_ge i (x / m) with hi | hi
    · -- not yet at the hit step: the current value misses the table
      have hge : m ≤ x - i * m := by
        have hle : (i + 1) * m ≤ (x / m) * m :=
          Nat.mul_le_mul_right m (by omega)
        have hzz : m * (x / m) = (x / m) * m := Nat.mul_comm _ _
        have h3 : (i + 1) * m = i * m + m := by ring
        omega
      have hlt : x - i * m < r := by omega
      have hnone : ecutils.dictGet r (ecutils.build_baby_step_table r β mv)
          (((x - i * m : ℕ) : ZMod r) * β) = none := by
        apply dictGet_table_none
        intro j hj heq
        have hj' : (((x - i * m : ℕ)) : ZMod r) = ((j : ℕ) : ZMod r) :=
          mul_right_cancel₀ hβ heq
        have : (x - i * m : ℕ) = j := by
          calc (x - i * m : ℕ) = (((x - i * m : ℕ) : ZMod r)).val :=
                (ZMod.val_cast_of_lt hlt).symm
          _ = (((j : ℕ) : ZMod r)).val := by rw [hj']
          _ = j := ZMod.val_cast_of_lt (lt_of_lt_of_le hj hmr)
        omega
      rw [show ecutils.dlogAux r (ecutils.build_baby_step_table r β mv) m
            (β * (-((m : ℕ) : ZMod r))) i (fuel + 1)
            (((x - i * m : ℕ) : ZMod r) * β)
          = (match ecutils.dictGet r (ecutils.build_baby_step_table r β mv)
                (((x - i * m : ℕ) : ZMod r) * β) with
             | some j => .ok (some ((i * m + j : ℕ) : ZMod r))
             | none => ecutils.dlogAux r
                 (ecutils.build_baby_step_table r β mv) m
                 (β * (-((m : ℕ) : ZMod r))) (i + 1) fuel
                 ((((x - i * m : ℕ) : ZMod r) * β) +
                   β * (-((m : ℕ) : ZMod r)))) from rfl, hnone]
      have hstep : (((x - i * m : ℕ) : ZMod r) * β) +
            β * (-((m : ℕ) : ZMod r))
          = (((x - (i + 1) * m : ℕ) : ZMod r) * β) := by
        have h4 : (x - (i + 1) * m : ℕ) = (x - i * m) - m := by
          have h3 : (i + 1) * m = i * m + m := by ring
          omega
        rw [h4, Nat.cast_sub hge]
        ring
      rw [hstep]
      exact ih (i + 1) (by omega) (by omega)
    · -- the hit step: i = x / m and the remainder is in the table
      have hieq : i = x / m := le_antisymm h1 hi
      have hsub : x - i * m = x % m := by
        subst hieq
        have hzz : m * (x / m) = (x / m) * m := Nat.mul_comm _ _
        omega
      have hsome : ecutils.dictGet r (ecutils.build_baby_step_table r β mv)
          (((x - i * m : ℕ) : ZMod r) * β) = some (x % m) := by
        rw [hsub]
        exact dictGet_table_some r β mv (x % m) hβ hmr hrem
      rw [show ecutils.dlogAux r (ecutils.build_baby_step_table r β mv) m
            (β * (-((m : ℕ) : ZMod r))) i (fuel + 1)
            (((x - i * m : ℕ) : ZMod r) * β)
          = (match ecutils.dictGet r (ecutils.build_baby_step_table r β mv)
                (((x - i * m : ℕ) : ZMod r) * β) with
             | some j => .ok (some ((i * m + j : ℕ) : ZMod r))
             | none => ecutils.dlogAux r
                 (ecutils.build_baby_step_table r β mv) m
                 (β * (-((m : ℕ) : ZMod r))) (i + 1) fuel
                 ((((x - i * m : ℕ) : ZMod r) * β) +
                   β * (-((m : ℕ) : ZMod r)))) from rfl, hsome]
      have hval : i * m + x % m = x := by
        subst hieq
        have hzz : m * (x / m) = (x / m) * m := Nat.mul_comm _ _
        omega
      show Except.ok (some ((i * m + x % m : ℕ) : ZMod r))
        = Except.ok (some ((x : ℕ) : ZMod r))
      rw [hval]

/-- `ecutils.discrete_log` finds every exponent below `m * m` (where
`m = isqrt(max_value) + 1`), provided the baby-step keys are pairwise
distinct: `base` is not the `GT` identity and `m * m ≤ r`. -/
theorem discrete_log_finds (β : GTe r) (mv x : ℕ) (hβ : β ≠ 0)
    (hr : (Nat.sqrt mv + 1) * (Nat.sqrt mv + 1) ≤ r)
    (hx : x < (Nat.sqrt mv + 1) * (Nat.sqrt mv + 1)) :
    ecutils.discrete_log r ((x : ZMod r) * β) β
        (ecutils.build_baby_step_table r β mv) mv
      = .ok (some ((x : ℕ) : ZMod r)) := by
  have hdiv : x / (Nat.sqrt mv + 1) < Nat.sqrt mv + 1 :=
    Nat.div_lt_of_lt_mul hx
  have h := dlogAux_run r β mv hβ hr x hx (Nat.sqrt mv + 1) 0
    (Nat.zero_le _) (by omega)
  rw [show ecutils.discrete_log r ((x : ZMod r) * β) β
        (ecutils.build_baby_step_table r β mv) mv
      = ecutils.dlogAux r (ecutils.build_baby_step_table r β mv)
          (Nat.sqrt mv + 1)
          (β * (-((Nat.sqrt mv + 1 : ℕ) : ZMod r))) 0 (Nat.sqrt mv + 1)
          ((x : ZMod r) * β) from rfl]
  rw [show (((x - 0 * (Nat.sqrt mv + 1) : ℕ) : ZMod r) * β)
      = ((x : ZMod r) * β) by rw [Nat.zero_mul, Nat.sub_zero]] at h
  exact h

end BSGS

section DeadCode

variable (r : ℕ) [Fact (Nat.Prime r)]

/-- Every run of the giant-step loop either returns an `Fr` value (`ok
(some _)`) or raises the not-found error — there is no `None` result. -/
theorem dlogAux_shape (tab : List (GTe r × ℕ)) (m : ℕ) (factor : GTe r) :
    ∀ (fuel i : ℕ) (cur : GTe r),
      (∃ v, ecutils.dlogAux r tab m factor i fuel cur = .ok (some v)) ∨
        ecutils.dlogAux r tab m factor i fuel cur
          = .error (ecutils.dlogNotFoundMsg)
  | 0, _, _ => Or.inr rfl
  | fuel + 1, i, cur => by
    rcases h : ecutils.dictGet r tab cur with _ | j
    · rw [show ecutils.dlogAux r tab m factor i (fuel + 1) cur
          = (match ecutils.dictGet r tab cur with
             | some j => .ok (some ((i * m + j : ℕ) : ZMod r))
             | none => ecutils.dlogAux r tab m factor (i + 1) fuel
                 (cur + factor)) from rfl, h]
      exact dlogAux_shape tab m factor fuel (i + 1) (cur + factor)
    · rw [show ecutils.dlogAux r tab m factor i (fuel + 1) cur
          = (match ecutils.dictGet r tab cur with
             | some j => .ok (some ((i * m + j : ℕ) : ZMod r))
             | none => ecutils.dlogAux r tab m factor (i + 1) fuel
                 (cur + factor)) from rfl, h]
      exact Or.inl ⟨_, rfl⟩

/-- `ecutils.discrete_log` never produces the Python value `None`: it
returns an `Fr` or raises the not-found error. -/
theorem discrete_log_shape (value base : GTe r) (tab : List (GTe r × ℕ))
    (mv : ℕ) :
    (∃ v, ecutils.discrete_log r value base tab mv = .ok (some v)) ∨
      ecutils.discrete_log r value base tab mv
        = .error (ecutils.dlogNotFoundMsg) :=
  dlogAux_shape r tab (Nat.sqrt mv + 1)
    (base * (-((Nat.sqrt mv + 1 : ℕ) : ZMod r))) (Nat.sqrt mv + 1) 0 value

/-- Mapping a `None`-free discrete-log function over a list either
propagates the not-found error or yields a list every entry of which is
`some`. -/
theorem mapDlog_shape (f : GTe r → Except String (Option (Fr r)))
    (hf : ∀ z, (∃ v, f z = .ok (some v)) ∨
      f z = .error (ecutils.dlogNotFoundMsg)) :
    ∀ z : List (GTe r),
      swe.mapDlog r f z = .error (ecutils.dlogNotFoundMsg) ∨
        ∃ msgs l', swe.mapDlog r f z = .ok msgs ∧
          swe.allSome r msgs = some l'
  | [] => Or.inr ⟨[], [], rfl, rfl⟩
  | z :: zs => by
    rcases hf z with ⟨v, hv⟩ | hv
    · rcases mapDlog_shape f hf zs with h | ⟨msgs, l', h1, h2⟩
      · rw [show swe.mapDlog r f (z :: zs)
            = (match f z, swe.mapDlog r f zs with
               | .error e, _ => .error e
               | .ok _, .error e => .error e
               | .ok v, .ok vs => .ok (v :: vs)) from rfl, hv, h]
        exact Or.inl rfl
      · rw [show swe.mapDlog r f (z :: zs)
            = (match f z, swe.mapDlog r f zs with
               | .error e, _ => .error e
               | .ok _, .error e => .error e
               | .ok v, .ok vs => .ok (v :: vs)) from rfl, hv, h1]
        refine Or.inr ⟨some v :: msgs, v :: l', rfl, ?_⟩
        rw [show swe.allSome r (some v :: msgs)
            = (match some v, swe.allSome r msgs with
               | some v, some vs => some (v :: vs)
               | _, _ => none) from rfl, h2]
    · rw [show swe.mapDlog r f (z :: zs)
          = (match f z, swe.mapDlog r f zs with
             | .error e, _ => .error e
             | .ok _, .error e => .error e
             | .ok v, .ok vs => .ok (v :: vs)) from rfl, hv]
      exact Or.inl rfl

/-- `decryptFinish` of a well-shaped discrete-log result is a success or
the propagated not-found error — never `"Decryption failed."`. -/
theorem decryptFinish_shape (res : Except String (List (Option (Fr r))))
    (hres : res = .error (ecutils.dlogNotFoundMsg) ∨
      ∃ msgs l', res = .ok msgs ∧ swe.allSome r msgs = some l') :
    (∃ l, swe.decryptFinish r res = .ok l) ∨
      swe.decryptFinish r res = .error (ecutils.dlogNotFoundMsg) := by
  rcases hres with h | ⟨msgs, l', h1, h2⟩
  · rw [h]
    exact Or.inr rfl
  · rw [h1, swe.decryptFinish, h2]
    exact Or.inl ⟨l', rfl⟩

/-- `swe.decrypt` either succeeds or fails with the discrete-log
not-found error; the `"Decryption failed."` branch is unreachable. -/
theorem decrypt_shape (sha256num : String → ℕ) (reprG2 : G2 r → String)
    (ctxt : swe.Ciphertext r) (aggr_signature : G1 r)
    (ver_keys : List (G2 r)) (used_vk_indices : List ℕ) (msg_lengths : ℕ)
    (baby_steps_table : List (GTe r × ℕ)) :
    (∃ l, swe.decrypt r sha256num reprG2 ctxt aggr_signature ver_keys
        used_vk_indices msg_lengths baby_steps_table = .ok l) ∨
      swe.decrypt r sha256num reprG2 ctxt aggr_signature ver_keys
          used_vk_indices msg_lengths baby_steps_table
        = .error (ecutils.dlogNotFoundMsg) :=
  decryptFinish_shape r _
    (mapDlog_shape r _
      (fun zi => discrete_log_shape r zi (pairing r (g1gen r) (g2gen r))
        baby_steps_table (2 ^ msg_lengths)) _)

end DeadCode

section RoundTripHelpers

/-- Totalised indexing into `(List.range n).map f`. -/
theorem getD_map_range {M : Type} (f : ℕ → M) (d : M) (n i : ℕ)
    (hi : i < n) : ((List.range n).map f).getD i d = f i := by
  rw [List.getD_eq_getElem _ d (by simpa using hi)]
  simp

/-- Totalised indexing into `l.map f` at an in-range index. -/
theorem getD_map {A M : Type} (f : A → M) (dA : A) (d : M) (l : List A)
    (i : ℕ) (hi : i < l.length) :
    (l.map f).getD i d = f (l.getD i dA) := by
  rw [List.getD_eq_getElem _ d (by simpa using hi),
    List.getD_eq_getElem _ dA hi]
  simp

/-- Reading a list back off its totalised indexing function. -/
theorem map_getD_range {M : Type} (l : List M) (d : M) :
    (List.range l.length).map (fun i => l.getD i d) = l := by
  apply List.ext_getElem
  · simp
  · intro i h1 h2
    simp only [List.getElem_map, List.getElem_range]
    rw [List.getD_eq_getElem _ d h2]

variable (r : ℕ) [Fact (Nat.Prime r)]

/-- `mapDlog` over a list on which the solver succeeds pointwise with the
element itself. -/
theorem mapDlog_id_ok (f : GTe r → Except String (Option (Fr r))) :
    ∀ l : List (GTe r), (∀ z ∈ l, f z = .ok (some z)) →
      swe.mapDlog r f l = .ok (l.map some)
  | [], _ => rfl
  | z :: zs, h => by
    rw [show swe.mapDlog r f (z :: zs)
        = (match f z, swe.mapDlog r f zs with
           | .error e, _ => .error e
           | .ok _, .error e => .error e
           | .ok v, .ok vs => .ok (v :: vs)) from rfl,
      h z (List.mem_cons_self z zs),
      mapDlog_id_ok f zs (fun w hw => h w (List.mem_cons_of_mem z hw))]
    rfl

/-- The `None`-check accepts a list of `some`s and strips them. -/
theorem allSome_map_some : ∀ l : List (Fr r),
    swe.allSome r (l.map some) = some l
  | [] => rfl
  | v :: l => by
    rw [show swe.allSome r ((v :: l).map some)
        = (match some v, swe.allSome r (l.map some) with
           | some v, some vs => some (v :: vs)
           | _, _ => none) from rfl,
      allSome_map_some l]

end RoundTripHelpers

section Claims

/-- C1.  Threshold round-trip correctness: for every threshold
`1 ≤ t ≤ n`, key list whose hash-to-scalar images are pairwise distinct,
target message, and plaintext scalars each in `[0, 2^msg_lengths)`, and
for every sorted size-`t` subset `S` of key holders who each sign the
target with their matching secret key, `decrypt` applied to
`encrypt(t, verKeys, target, msgs)`, the `agg_sigs` aggregate of `S`'s
signatures, `verKeys`, `S`, and a baby-step table for the bound returns
exactly `msgs`.  The sampled randomness is explicit
(`coefficients, alpha, rr, h_rand`), and the group-order side conditions
of spec §4.4 (`(isqrt(maxValue)+1)² ≤ r`) are hypotheses. -/
theorem C1_threshold_roundtrip
    (r : ℕ) [Fact (Nat.Prime r)]
    (sha256num : String → ℕ) (reprG2 : G2 r → String) (hashG1 : String → G1 r)
    (sks ver_keys : List (Fr r)) (dec_threshold msg_lengths : ℕ)
    (target : String) (messages : List (Fr r))
    (coefficients alpha : List (Fr r)) (rr h_rand : Fr r)
    (S : List ℕ)
    (hvk : ver_keys = sks.map (fun sk => (modbls.key_gen r sk).2))
    (ht1 : 1 ≤ dec_threshold) (htn : dec_threshold ≤ sks.length)
    (hcoef : coefficients.length = dec_threshold)
    (halpha : alpha.length = messages.length)
    (hS : S.length = dec_threshold)
    (hSsorted : S.Sorted (· < ·))
    (hSmem : ∀ i ∈ S, i < sks.length)
    (hhash : (ver_keys.map
        (fun v => ecutils.hash_g2_to_fr r sha256num reprG2 v)).Nodup)
    (hmsg : ∀ mv ∈ messages, (mv : ZMod r).val < 2 ^ msg_lengths)
    (hbound : (Nat.sqrt (2 ^ msg_lengths) + 1) *
        (Nat.sqrt (2 ^ msg_lengths) + 1) ≤ r) :
    swe.decrypt r sha256num reprG2
        (swe.encrypt r sha256num reprG2 hashG1 dec_threshold ver_keys target
          messages coefficients alpha rr h_rand)
        (modbls.agg_sigs r sha256num reprG2
          (S.map (fun i => modbls.sign r hashG1 (sks.getD i 0) target))
          (S.map (fun i => ver_keys.getD i 0)))
        ver_keys S msg_lengths
        (ecutils.build_baby_step_table r (pairing r (g1gen r) (g2gen r))
          (2 ^ msg_lengths))
      = .ok messages := by
  haveI : NeZero r := ⟨Nat.Prime.ne_zero (Fact.out)⟩
  have hvklen : ver_keys.length = sks.length := by rw [hvk]; simp
  have hSnd : S.Nodup := List.Pairwise.imp (fun h => ne_of_lt h) hSsorted
  simp only [swe.decrypt]
  set ct := swe.encrypt r sha256num reprG2 hashG1 dec_threshold ver_keys
    target messages coefficients alpha rr h_rand with hct
  set xiD := S.map
    (fun i => ecutils.hash_g2_to_fr r sha256num reprG2 (ver_keys.getD i 0))
    with hxiD
  have hxiDlen : xiD.length = S.length := by rw [hxiD]; simp
  have hxiDget : ∀ idx, idx < S.length → xiD.getD idx 0
      = ecutils.hash_g2_to_fr r sha256num reprG2
          (ver_keys.getD (S.getD idx 0) 0) := by
    intro idx hidx
    rw [hxiD, getD_map _ 0 _ _ _ hidx]
  have hmemn : ∀ idx, idx < S.length → S.getD idx 0 < ver_keys.length := by
    intro idx hidx
    rw [hvklen]
    refine hSmem _ ?_
    rw [List.getD_eq_getElem _ 0 hidx]
    exact List.getElem_mem _
  have hxiDnodup : xiD.Nodup := by
    rw [hxiD]
    refine List.Nodup.map_on ?_ hSnd
    intro a ha b hb hab
    have ha' : a < ver_keys.length := by rw [hvklen]; exact hSmem a ha
    have hb' : b < ver_keys.length := by rw [hvklen]; exact hSmem b hb
    have h1 : (ver_keys.map
          (fun v => ecutils.hash_g2_to_fr r sha256num reprG2 v)).get
            ⟨a, by simpa using ha'⟩
        = (ver_keys.map
          (fun v => ecutils.hash_g2_to_fr r sha256num reprG2 v)).get
            ⟨b, by simpa using hb'⟩ := by
      simp only [List.get_eq_getElem, List.getElem_map]
      rw [← List.getD_eq_getElem _ 0 ha', ← List.getD_eq_getElem _ 0 hb']
      exact hab
    have h2 := (List.Nodup.get_inj_iff hhash).mp h1
    exact congrArg Fin.val h2
  -- ciphertext components
  have hc1i : ∀ j, j < ver_keys.length → ct.c1.getD j 0
      = ver_keys.getD j 0 * rr + g2gen r *
          ecutils.eval_polynomial r
            (ecutils.hash_g2_to_fr r sha256num reprG2 (ver_keys.getD j 0))
            coefficients := by
    intro j hj
    rw [hct]
    simp only [swe.encrypt]
    rw [getD_map_range _ _ _ j hj, getD_map_range _ _ _ j hj,
      getD_map_range _ _ _ j hj]
  have hc2len : ct.c2.length = messages.length := by
    rw [hct]; simp [swe.encrypt]
  have hc2i : ∀ j, j < messages.length → ct.c2.getD j 0
      = pairing r (hashG1 target * alpha.getD j 0)
          (g2gen r * coefficients.getD 0 0) +
        pairing r (g1gen r) (g2gen r) * messages.getD j 0 := by
    intro j hj
    rw [hct]
    simp only [swe.encrypt]
    rw [getD_map_range _ _ _ j hj, getD_map_range _ _ _ j hj]
  have hai : ∀ j, j < messages.length → ct.a.getD j 0
      = g2gen r * rr * alpha.getD j 0 := by
    intro j hj
    rw [hct]
    simp only [swe.encrypt]
    rw [getD_map_range _ _ _ j hj]
  have hti : ∀ j, j < messages.length → ct.t.getD j 0
      = hashG1 target * alpha.getD j 0 := by
    intro j hj
    rw [hct]
    simp only [swe.encrypt]
    rw [getD_map_range _ _ _ j hj]
  -- the reconstructed subset key
  set K : Fr r := ∑ idx ∈ Finset.range S.length,
    sks.getD (S.getD idx 0) 0 * modbls.compute_li r xiD idx with hK
  -- the Lagrange-recombined share sum
  set C := List.foldl
      (fun c p => c + ct.c1.getD p.2 0 *
        ((List.range S.length).map
          (fun i => modbls.compute_li r xiD i)).getD p.1 0)
      (g2gen r - g2gen r) S.enum with hC
  have hCval : C = rr * K + coefficients.getD 0 0 := by
    rw [hC, show S.enum = S.enumFrom 0 from rfl,
      foldl_add_sum (fun (p : ℕ × ℕ) => ct.c1.getD p.2 0 *
        ((List.range S.length).map
          (fun i => modbls.compute_li r xiD i)).getD p.1 0),
      enumFrom_map_sum 0 (fun (p : ℕ × ℕ) => ct.c1.getD p.2 0 *
        ((List.range S.length).map
          (fun i => modbls.compute_li r xiD i)).getD p.1 0),
      sub_self, zero_add]
    have hterm : ∀ idx ∈ Finset.range S.length,
        ct.c1.getD (S.getD idx 0) 0 *
            ((List.range S.length).map
              (fun i => modbls.compute_li r xiD i)).getD idx 0
          = sks.getD (S.getD idx 0) 0 * modbls.compute_li r xiD idx * rr +
            modbls.compute_li r xiD idx *
              ecutils.eval_polynomial r (xiD.getD idx 0) coefficients := by
      intro idx hidx
      have hidx' : idx < S.length := Finset.mem_range.mp hidx
      rw [getD_map_range _ _ _ idx hidx', hc1i _ (hmemn idx hidx'),
        ← hxiDget idx hidx']
      have hvkval : ver_keys.getD (S.getD idx 0) 0
          = g2gen r * sks.getD (S.getD idx 0) 0 := by
        have hlt : S.getD idx 0 < sks.length := by
          rw [← hvklen]
          exact hmemn idx hidx'
        rw [hvk, getD_map _ 0 _ _ _ hlt]
        simp [modbls.key_gen]
      rw [hvkval, show g2gen r = 1 from rfl]
      ring
    simp only [Nat.zero_add]
    refine Eq.trans (Finset.sum_congr rfl hterm) ?_
    rw [Finset.sum_add_distrib, ← Finset.sum_mul, ← hK, mul_comm K rr]
    congr 1
    have hl1 : xiD.length = coefficients.length := by
      rw [hxiDlen, hS, hcoef]
    have := lagrange_core r coefficients xiD hl1 hxiDnodup
    rw [hxiDlen] at this
    rw [← this]
  -- the aggregated signature
  set A := modbls.agg_sigs r sha256num reprG2
    (S.map (fun i => modbls.sign r hashG1 (sks.getD i 0) target))
    (S.map (fun i => ver_keys.getD i 0)) with hA
  have hAval : A = hashG1 target * K := by
    rw [hA, modbls.agg_sigs]
    rw [List.length_map, List.map_map]
    have hxiA : (S.map ((fun vk => hashtofr.hash r sha256num reprG2 vk) ∘
        (fun i => ver_keys.getD i 0))) = xiD := by
      rw [hxiD]
      rfl
    rw [hxiA]
    rw [foldl_add_sum (fun i => (S.map
        (fun i => modbls.sign r hashG1 (sks.getD i 0) target)).getD i 0 *
        modbls.compute_li r xiD i),
      sub_self, zero_add, range_map_sum, hK, Finset.mul_sum]
    apply Finset.sum_congr rfl
    intro idx hidx
    have hidx' : idx < S.length := Finset.mem_range.mp hidx
    rw [getD_map _ 0 _ _ _ hidx', modbls.sign]
    ring
  -- the unmasked pads are exactly the plaintext exponents
  have hzlist : (List.map
      (fun i => ct.c2.getD i 0 + pairing r A (ct.a.getD i 0) -
        pairing r (ct.t.getD i 0) C)
      (List.range ct.c2.length)) = messages := by
    apply List.ext_getElem
    · simp [hc2len]
    · intro i h1 h2
      have hi : i < messages.length := by
        simpa [hc2len] using h1
      simp only [List.getElem_map, List.getElem_range]
      rw [hc2i i hi, hai i hi, hti i hi, hCval, hAval,
        ← List.getD_eq_getElem messages 0 hi]
      simp only [pairing, g1gen, g2gen]
      ring
  rw [hzlist]
  have hmemf : ∀ z ∈ messages,
      ecutils.discrete_log r z (pairing r (g1gen r) (g2gen r))
        (ecutils.build_baby_step_table r (pairing r (g1gen r) (g2gen r))
          (2 ^ msg_lengths)) (2 ^ msg_lengths) = .ok (some z) := by
    intro z hz
    have hzval := hmsg z hz
    have hfound := discrete_log_finds r
      (pairing r (g1gen r) (g2gen r)) (2 ^ msg_lengths) (ZMod.val z)
      (by simp [pairing, g1gen, g2gen]) hbound
      (lt_trans hzval (Nat.lt_succ_sqrt _))
    rw [show ((ZMod.val z : ℕ) : ZMod r) * pairing r (g1gen r) (g2gen r)
        = z by
      rw [show pairing r (g1gen r) (g2gen r) = 1 * 1 from rfl, mul_one,
        mul_one, ZMod.natCast_rightInverse z]] at hfound
    rw [hfound, ZMod.natCast_rightInverse z]
  rw [mapDlog_id_ok r _ messages hmemf]
  rw [show swe.decryptFinish r (.ok (messages.map some))
      = (match swe.allSome r (messages.map some) with
         | some l => Except.ok l
         | none => Except.error (swe.decFailedMsg)) from rfl,
    allSome_map_some]

/-- Concrete small prime used by witnesses and counterexamples. -/
instance fact101 : Fact (Nat.Prime 101) := ⟨by norm_num⟩

/-- C2 (amended).  Discrete-log boundary: with the baby-step keys
pairwise distinct (`base` not the `GT` identity, `m² ≤ r` for
`m = isqrt(maxValue) + 1`), `discrete_log(base^x, base, table, maxValue)`
returns `x` for every `x ∈ [0, maxValue)`, and at `x = maxValue` it
*returns `maxValue`* instead of raising: the giant-step search covers
`[0, m²)`, which strictly contains `maxValue`. -/
theorem C2_discrete_log_boundary (r : ℕ) [Fact (Nat.Prime r)] (β : GTe r)
    (mv x : ℕ) (hβ : β ≠ 0)
    (hr : (Nat.sqrt mv + 1) * (Nat.sqrt mv + 1) ≤ r) (hx : x ≤ mv) :
    ecutils.discrete_log r ((x : ZMod r) * β) β
        (ecutils.build_baby_step_table r β mv) mv
      = .ok (some ((x : ℕ) : ZMod r)) :=
  discrete_log_finds r β mv x hβ hr (lt_of_le_of_lt hx (Nat.lt_succ_sqrt mv))

/-- Witness for C2 at `r = 101`, `base = gt`, `maxValue = 4`, `x = 3`. -/
theorem C2_witness :
    ecutils.discrete_log 101 (((3 : ℕ) : ZMod 101) * 1) 1
        (ecutils.build_baby_step_table 101 1 4) 4
      = .ok (some ((3 : ℕ) : ZMod 101)) :=
  C2_discrete_log_boundary 101 1 4 3 (by decide)
    (by norm_num [Nat.sqrt]) (by norm_num)

/-- Counterexample to C2 as stated: at `base = gt` (exponent `1`) and
`maxValue = 4`, `discrete_log(base^4, base, table, 4)` returns `4`
(`ok`), it does not raise the not-found error. -/
theorem C2_counterexample :
    ecutils.discrete_log 101 (((4 : ℕ) : ZMod 101) * 1) 1
        (ecutils.build_baby_step_table 101 1 4) 4
      = .ok (some ((4 : ℕ) : ZMod 101)) := by
  simp only [ecutils.discrete_log, ecutils.build_baby_step_table]
  rw [show Nat.sqrt 4 = 2 from by norm_num [Nat.sqrt]]
  decide

/-- C4 (amended).  `compute_li` performs no duplicate check: on a list
with `xs[i] == xs[j]` (`i ≠ j`) the zero-denominator division yields the
backend junk value (`x / 0 = 0`), so `compute_li(xs, i)` *returns* `0`
rather than failing with `InvalidParameters` — and `agg_sigs`/`agg_verify`
built on it likewise proceed without raising. -/
theorem C4_no_duplicate_check (r : ℕ) [Fact (Nat.Prime r)]
    (xs : List (Fr r)) (i j : ℕ) (hi : i < xs.length) (hj : j < xs.length)
    (hij : i ≠ j) (hdup : xs.getD i 0 = xs.getD j 0) :
    modbls.compute_li r xs i = 0 := by
  rw [compute_li_eq_prod]
  apply Finset.prod_eq_zero (Finset.mem_erase.mpr
    ⟨Ne.symm hij, Finset.mem_range.mpr hj⟩)
  rw [hdup, sub_self, div_zero]

/-- Witness for C4 at `xs = [1, 1]`, `i = 0`, `j = 1`. -/
theorem C4_witness : modbls.compute_li 101 [1, 1] 0 = 0 :=
  C4_no_duplicate_check 101 [1, 1] 0 1 (by decide) (by decide) (by decide)
    (by decide)

/-- Counterexample to C4 as stated, by direct evaluation: on the
duplicate list `[1, 1]` the coefficient computation returns the value `0`
— no error path exists in `compute_li`. -/
theorem C4_counterexample :
    modbls.compute_li 101 [1, 1] 0 = 0 := by
  rw [modbls.compute_li]
  rw [show List.range (List.length ([1, 1] : List (Fr 101))) = [0, 1]
    from rfl]
  simp [sub_self, div_zero]

/-- C6 (amended).  Baby-step completeness holds for every base whose
baby-step keys are pairwise distinct (`base` not the `GT` identity and
`m ≤ r`): `table[base^j] == j` for all `j < m = isqrt(maxValue) + 1`. -/
theorem C6_table_completeness (r : ℕ) [Fact (Nat.Prime r)] (β : GTe r)
    (mv j : ℕ) (hβ : β ≠ 0) (hm : Nat.sqrt mv + 1 ≤ r)
    (hj : j < Nat.sqrt mv + 1) :
    ecutils.dictGet r (ecutils.build_baby_step_table r β mv)
        ((j : ZMod r) * β) = some j :=
  dictGet_table_some r β mv j hβ hm hj

/-- Witness for C6 at `r = 101`, `base = gt`, `maxValue = 4`, `j = 2`. -/
theorem C6_witness :
    ecutils.dictGet 101 (ecutils.build_baby_step_table 101 1 4)
        (((2 : ℕ) : ZMod 101) * 1) = some 2 :=
  C6_table_completeness 101 1 4 2 (by decide) (by norm_num [Nat.sqrt])
    (by norm_num [Nat.sqrt])

/-- Counterexample to C6 as stated (for *every* base): with the `GT`
identity as base (exponent `0`) and `maxValue = 4`, every insertion
overwrites the same key, so `table[base^1]` is `2`, not `1`. -/
theorem C6_counterexample :
    ecutils.dictGet 101 (ecutils.build_baby_step_table 101 0 4)
        (((1 : ℕ) : ZMod 101) * 0) = some 2 ∧
      ecutils.dictGet 101 (ecutils.build_baby_step_table 101 0 4)
        (((1 : ℕ) : ZMod 101) * 0) ≠ some 1 := by
  simp only [ecutils.build_baby_step_table]
  rw [show Nat.sqrt 4 = 2 from by norm_num [Nat.sqrt]]
  constructor
  · decide
  · decide

/-- C3.  Lagrange reconstruction identity: for every coefficient list of
length `t` and every list of `t` pairwise-distinct evaluation points,
`Σ_i compute_li(xs, i) * eval_polynomial(xs[i], coefficients)` equals
`coefficients[0]`, the secret. -/
theorem C3_lagrange_identity (r : ℕ) [Fact (Nat.Prime r)]
    (coefficients xs : List (Fr r))
    (hlen : xs.length = coefficients.length) (hnd : xs.Nodup) :
    ∑ i ∈ Finset.range xs.length,
        modbls.compute_li r xs i *
          ecutils.eval_polynomial r (xs.getD i 0) coefficients
      = coefficients.getD 0 0 :=
  lagrange_core r coefficients xs hlen hnd

/-- Witness for C3 at `t = 1`, `coefficients = [5]`, `xs = [7]`. -/
theorem C3_witness :
    ∑ i ∈ Finset.range ([7] : List (Fr 101)).length,
        modbls.compute_li 101 [7] i *
          ecutils.eval_polynomial 101 (([7] : List (Fr 101)).getD i 0) [5]
      = ([5] : List (Fr 101)).getD 0 0 :=
  C3_lagrange_identity 101 [5] [7] rfl (by decide)

/-- C5.  Hash-to-scalar consistency: `ecutils.hash_g2_to_fr` (used by
`encrypt`/`decrypt`) and `hashtofr.hash` (used by `agg_sigs`/`agg_verify`)
are extensionally equal — the two sources carry the identical
SHA-256-mod-r construction, so the embedding makes them definitionally
equal. -/
theorem C5_hash_consistency (r : ℕ) [Fact (Nat.Prime r)]
    (sha256num : String → ℕ)
    (reprG2 : G2 r → String) (v : G2 r) :
    ecutils.hash_g2_to_fr r sha256num reprG2 v
      = hashtofr.hash r sha256num reprG2 v := rfl

/-- Witness for C5 at `r = 101`, `v = 5`. -/
theorem C5_witness :
    ecutils.hash_g2_to_fr 101 (fun _ => 0) (fun _ => "A") 5
      = hashtofr.hash 101 (fun _ => 0) (fun _ => "A") 5 :=
  C5_hash_consistency 101 (fun _ => 0) (fun _ => "A") 5

/-- C7.  `agg_verify` raises exactly when `len(messages) != len(ver_keys)`
(and the only error is that structural one); on every equal-length,
duplicate-free input it returns a boolean and never raises; and `verify`
always returns a boolean. -/
theorem C7_agg_verify_boolean (r : ℕ) [Fact (Nat.Prime r)]
    (sha256num : String → ℕ) (reprG2 : G2 r → String)
    (hashG1 : String → G1 r) (agg_sig : G1 r) (messages : List String)
    (ver_keys : List (G2 r)) :
    ((∃ e, modbls.agg_verify r sha256num reprG2 hashG1 agg_sig messages
        ver_keys = .error e) ↔ messages.length ≠ ver_keys.length) ∧
      (messages.length = ver_keys.length →
        (ver_keys.map (fun v => hashtofr.hash r sha256num reprG2 v)).Nodup →
        ∃ b, modbls.agg_verify r sha256num reprG2 hashG1 agg_sig messages
          ver_keys = .ok b) ∧
      ∀ (vk : G2 r) (message : String) (sig : G1 r),
        modbls.verify r hashG1 vk message sig = true ∨
          modbls.verify r hashG1 vk message sig = false := by
  refine ⟨?_, ?_, ?_⟩
  · by_cases hlen : messages.length ≠ ver_keys.length
    · have he : modbls.agg_verify r sha256num reprG2 hashG1 agg_sig messages
          ver_keys = .error (modbls.lenMismatchMsg) := by
        rw [modbls.agg_verify, if_pos hlen]
      exact ⟨fun _ => hlen, fun _ => ⟨_, he⟩⟩
    · have hok : ∃ b, modbls.agg_verify r sha256num reprG2 hashG1 agg_sig
          messages ver_keys = .ok b :=
        ⟨_, by rw [modbls.agg_verify, if_neg hlen]⟩
      constructor
      · rintro ⟨e, he⟩
        rcases hok with ⟨b, hb⟩
        rw [hb] at he
        cases he
      · intro hc
        exact absurd hc hlen
  · intro hlen _
    exact ⟨_, by rw [modbls.agg_verify, if_neg (fun hc => hc hlen)]⟩
  · intro vk message sig
    cases h : modbls.verify r hashG1 vk message sig
    · exact Or.inr rfl
    · exact Or.inl rfl

/-- Witness for C7: a concrete equal-length, duplicate-free call returns
a boolean. -/
theorem C7_witness :
    ∃ b, modbls.agg_verify 101 (fun _ => 0) (fun _ => "A") (fun _ => 1) 5
      ["m"] [3] = .ok b :=
  (C7_agg_verify_boolean 101 (fun _ => 0) (fun _ => "A") (fun _ => 1) 5
    ["m"] [3]).2.1 rfl (by decide)

/-- C8.  Fast exponentiation correctness: `pow_fr(base, e)` terminates
(it is a total function) and equals `base ^ e`, with `pow_fr(base, 0) = 1`;
consequently `eval_polynomial(x, coefficients)` equals
`Σ_i coefficients[i] * x^i`, the `i = 0` term contributing
`coefficients[0]`. -/
theorem C8_pow_eval (r : ℕ) [Fact (Nat.Prime r)] (base : Fr r) (e : ℕ)
    (x : Fr r) (coefficients : List (Fr r)) :
    ecutils.pow_fr r base e = base ^ e ∧ ecutils.pow_fr r base 0 = 1 ∧
      ecutils.eval_polynomial r x coefficients
        = ∑ i ∈ Finset.range coefficients.length,
            coefficients.getD i 0 * x ^ i :=
  ⟨pow_fr_eq r base e,
    by rw [pow_fr_eq]; exact pow_zero base,
    eval_polynomial_eq r x coefficients⟩

/-- Witness for C8 at `r = 101`, `base = 3`, `e = 5`, `x = 2`,
`coefficients = [1, 2]`. -/
theorem C8_witness :
    ecutils.pow_fr 101 3 5 = (3 : Fr 101) ^ 5 ∧
      ecutils.pow_fr 101 3 0 = 1 ∧
      ecutils.eval_polynomial 101 2 [1, 2]
        = ∑ i ∈ Finset.range ([1, 2] : List (Fr 101)).length,
            ([1, 2] : List (Fr 101)).getD i 0 * (2 : Fr 101) ^ i :=
  C8_pow_eval 101 3 5 2 [1, 2]

/-- C9 (amended).  Ciphertext shape: the ciphertext returned by `encrypt`
consists of exactly the *seven* fields `h, c, c0, c1, c2, a, t` (the six
of the spec plus the extra `c : G2`), with `len(c1) = n` and
`len(c2) = len(a) = len(t) = m`; the seven fields determine the
ciphertext. -/
theorem C9_ciphertext_shape (r : ℕ) [Fact (Nat.Prime r)]
    (sha256num : String → ℕ) (reprG2 : G2 r → String)
    (hashG1 : String → G1 r) (dec_threshold : ℕ) (ver_keys : List (G2 r))
    (target_message : String) (messages coefficients alpha : List (Fr r))
    (rr h_rand : Fr r) :
    (swe.encrypt r sha256num reprG2 hashG1 dec_threshold ver_keys
        target_message messages coefficients alpha rr h_rand).c1.length
        = ver_keys.length ∧
      (swe.encrypt r sha256num reprG2 hashG1 dec_threshold ver_keys
        target_message messages coefficients alpha rr h_rand).c2.length
        = messages.length ∧
      (swe.encrypt r sha256num reprG2 hashG1 dec_threshold ver_keys
        target_message messages coefficients alpha rr h_rand).a.length
        = messages.length ∧
      (swe.encrypt r sha256num reprG2 hashG1 dec_threshold ver_keys
        target_message messages coefficients alpha rr h_rand).t.length
        = messages.length ∧
      ∀ ct1 ct2 : swe.Ciphertext r, ct1.h = ct2.h → ct1.c = ct2.c →
        ct1.c0 = ct2.c0 → ct1.c1 = ct2.c1 → ct1.c2 = ct2.c2 →
        ct1.a = ct2.a → ct1.t = ct2.t → ct1 = ct2 := by
  refine ⟨?_, ?_, ?_, ?_, ?_⟩
  · simp [swe.encrypt]
  · simp [swe.encrypt]
  · simp [swe.encrypt]
  · simp [swe.encrypt]
  · intro ct1 ct2 h1 h2 h3 h4 h5 h6 h7
    cases ct1
    cases ct2
    simp_all

/-- Witness for C9: the `c1` length of a concrete `encrypt` call. -/
theorem C9_witness :
    (swe.encrypt 101 (fun _ => 0) (fun _ => "A") (fun _ => 6) 1 [2] "T"
      [3] [5] [7] 4 9).c1.length = ([2] : List (G2 101)).length :=
  (C9_ciphertext_shape 101 (fun _ => 0) (fun _ => "A") (fun _ => 6) 1 [2]
    "T" [3] [5] [7] 4 9).1

/-- Counterexample to C9 as stated: two ciphertexts that agree on all six
spec-listed fields `h, c0, c1, c2, a, t` yet differ (in the seventh field
`c`), so the ciphertext does not consist of exactly those six fields. -/
theorem C9_counterexample :
    ((swe.Ciphertext.mk (0 : G2 101) 0 0 [] [] [] []).h
        = (swe.Ciphertext.mk (0 : G2 101) 1 0 [] [] [] []).h ∧
      (swe.Ciphertext.mk (0 : G2 101) 0 0 [] [] [] []).c0
        = (swe.Ciphertext.mk (0 : G2 101) 1 0 [] [] [] []).c0 ∧
      (swe.Ciphertext.mk (0 : G2 101) 0 0 [] [] [] []).c1
        = (swe.Ciphertext.mk (0 : G2 101) 1 0 [] [] [] []).c1 ∧
      (swe.Ciphertext.mk (0 : G2 101) 0 0 [] [] [] []).c2
        = (swe.Ciphertext.mk (0 : G2 101) 1 0 [] [] [] []).c2 ∧
      (swe.Ciphertext.mk (0 : G2 101) 0 0 [] [] [] []).a
        = (swe.Ciphertext.mk (0 : G2 101) 1 0 [] [] [] []).a ∧
      (swe.Ciphertext.mk (0 : G2 101) 0 0 [] [] [] []).t
        = (swe.Ciphertext.mk (0 : G2 101) 1 0 [] [] [] []).t) ∧
      swe.Ciphertext.mk (0 : G2 101) 0 0 [] [] [] []
        ≠ swe.Ciphertext.mk (0 : G2 101) 1 0 [] [] [] [] := by
  refine ⟨⟨rfl, rfl, rfl, rfl, rfl, rfl⟩, ?_⟩
  intro hc
  have := congrArg swe.Ciphertext.c hc
  simp only at this
  exact absurd this (by decide)

/-- C10.  Unreachable failure branch in `decrypt`: `discrete_log` always
either returns an `Fr` value or raises (never the Python value `None`),
hence `decrypt` can never reach the branch raising
`"Decryption failed."` — its result is a success or the propagated
not-found error. -/
theorem C10_dead_branch (r : ℕ) [Fact (Nat.Prime r)]
    (sha256num : String → ℕ) (reprG2 : G2 r → String)
    (ctxt : swe.Ciphertext r) (aggr_signature : G1 r)
    (ver_keys : List (G2 r)) (used_vk_indices : List ℕ) (msg_lengths : ℕ)
    (baby_steps_table : List (GTe r × ℕ)) :
    swe.decrypt r sha256num reprG2 ctxt aggr_signature ver_keys
        used_vk_indices msg_lengths baby_steps_table
      ≠ .error (swe.decFailedMsg) ∧
      ∀ (value base : GTe r) (tab : List (GTe r × ℕ)) (mv : ℕ),
        ecutils.discrete_log r value base tab mv ≠ .ok none := by
  constructor
  · rcases decrypt_shape r sha256num reprG2 ctxt aggr_signature ver_keys
        used_vk_indices msg_lengths baby_steps_table with ⟨l, hl⟩ | he
    · rw [hl]
      intro hc
      cases hc
    · rw [he]
      intro hc
      injection hc with h
      exact absurd h (by decide)
  · intro value base tab mv
    rcases discrete_log_shape r value base tab mv with ⟨v, hv⟩ | he
    · rw [hv]
      intro hc
      injection hc with h
      cases h
    · rw [he]
      intro hc
      cases hc

/-- Witness for C10 at a concrete (degenerate) input. -/
theorem C10_witness :
    swe.decrypt 101 (fun _ => 0) (fun _ => "A")
        (swe.Ciphertext.mk 0 0 0 [] [] [] []) 0 [] [] 0 []
      ≠ .error (swe.decFailedMsg) :=
  (C10_dead_branch 101 (fun _ => 0) (fun _ => "A")
    (swe.Ciphertext.mk 0 0 0 [] [] [] []) 0 [] [] 0 []).1

/-- Witness for C1: a full concrete round-trip at `r = 101`, `t = n = 1`,
message `3`, bound `2²`. -/
theorem C1_witness :
    swe.decrypt 101 (fun _ => 0) (fun _ => "A")
        (swe.encrypt 101 (fun _ => 0) (fun _ => "A") (fun _ => 6) 1 [2]
          "T" [3] [5] [7] 4 9)
        (modbls.agg_sigs 101 (fun _ => 0) (fun _ => "A")
          (([0] : List ℕ).map (fun i => modbls.sign 101 (fun _ => 6)
            (([2] : List (Fr 101)).getD i 0) "T"))
          (([0] : List ℕ).map (fun i => ([2] : List (Fr 101)).getD i 0)))
        [2] [0] 2
        (ecutils.build_baby_step_table 101
          (pairing 101 (g1gen 101) (g2gen 101)) (2 ^ 2))
      = .ok [3] :=
  C1_threshold_roundtrip 101 (fun _ => 0) (fun _ => "A") (fun _ => 6)
    [2] [2] 1 2 "T" [3] [5] [7] 4 9 [0]
    (by decide) (by decide) (by decide) rfl rfl rfl (by decide)
    (by decide) (by decide) (by decide) (by norm_num [Nat.sqrt])

end Claims
